import Mathlib

/-!
Verification of the OpenMP host-parallel execution engine
(`src/core/src/OpenMP/Kokkos_OpenMP_Parallel.hpp`): work partitioning,
parallel for / reduce / scan, the cross-worker merge, the scan carry
walk, and the team-policy variants.  Pure loops from the source are
embedded as structurally recursive Lean functions; the partitioning and
rendezvous machinery (`HostThreadTeamData`, `WorkRange`), whose code is
not part of this excerpt, is modelled from the specification.
-/

namespace KokkosOMP

/-- Modelled from the spec: number of `chunk`-sized chunks needed to cover
`total` iterations (ceiling division), as used by the WorkPartitioner
(`set_work_partition`, whose source is not in this excerpt). -/
def numChunks (total chunk : ℕ) : ℕ := (total + chunk - 1) / chunk

/-- Modelled from the spec: chunk index at which worker `w`'s static slice
starts.  The `numChunks` chunks are divided into `pool` slices, remainder
chunks assigned to the lowest-ranked workers (ceiling distribution), so
slice sizes differ by at most one chunk. -/
def chunkOffset (total chunk pool w : ℕ) : ℕ :=
  w * (numChunks total chunk / pool) + min w (numChunks total chunk % pool)

/-- Modelled from the spec: first iteration index of worker `w`'s static
slice, clipped to `total`. -/
def sliceBegin (total chunk pool w : ℕ) : ℕ :=
  min (chunk * chunkOffset total chunk pool w) total

/-- Length of worker `w`'s static slice. -/
def sliceLen (total chunk pool w : ℕ) : ℕ :=
  sliceBegin total chunk pool (w + 1) - sliceBegin total chunk pool w

/-- Worker `w`'s static slice of `[0, total)` as the list of its iteration
offsets in ascending order. -/
def sliceList (total chunk pool w : ℕ) : List ℕ :=
  List.range' (sliceBegin total chunk pool w) (sliceLen total chunk pool w)

/-- Modelled from the spec: the `k`-th chunk handed out by the pool-shared
work-stealing cursor (`get_work_stealing_chunk`): chunks are claimed in
cursor order, chunk `k` covering `[k*chunk, min((k+1)*chunk, total))`.
Expressed through the static slicing with one slice per chunk. -/
def chunkList (total chunk k : ℕ) : List ℕ :=
  sliceList total chunk (numChunks total chunk) k

/-- Modelled from the spec: under Dynamic scheduling, the iteration offsets
executed by worker `w` during one run, where `claimant k` is the worker that
won the compare-and-swap for the `k`-th cursor chunk in that run; `w`
executes its claimed chunks in cursor order. -/
def dynIndices (total chunk : ℕ) (claimant : ℕ → ℕ) (w : ℕ) : List ℕ :=
  (((List.range (numChunks total chunk)).filter
      (fun k => claimant k = w)).map (chunkList total chunk)).flatten

/-- Reducer contract: `init` writes the identity into a scratch slot, `join`
combines `dst` with `src` (first argument is the destination), `final` is the
post-processing applied once to the merged value.  In the source this is
`Analysis::Reducer`. -/
structure Reducer (α : Type) where
  init : α
  join : α → α → α
  final : α → α

/-- Sequential traversal of one contiguous range (`exec_range` in the
source): fold the functor over the iteration offsets, invoking it at global
index `b + k`, accumulating into `acc` (the by-reference `update`). -/
def execRange {α : Type} (f : ℤ → α → α) (b : ℤ) (idxs : List ℕ) (acc : α) : α :=
  idxs.foldl (fun a (k : ℕ) => f (b + (k : ℤ)) a) acc

/-- Cross-worker merge loop of `ParallelReduce::execute`:
`for (int i = 1; i < pool_size; ++i) final_reducer.join(ptr, slot_i)` —
`m` is the number of remaining iterations, `i` the current worker rank,
`acc` the contents of `ptr` (worker 0's slot). -/
def mergeFrom {α : Type} (join : α → α → α) (slots : ℕ → α) : ℕ → α → ℕ → α
  | 0, acc, _ => acc
  | m + 1, acc, i => mergeFrom join slots m (join acc (slots i)) (i + 1)

/-- Merge of all `pool` worker slots starting from worker 0's slot and
joining slots `1 … pool-1` in ascending rank order, as in the source. -/
def mergeSlots {α : Type} (join : α → α → α) (slots : ℕ → α) (pool : ℕ) : α :=
  mergeFrom join slots (pool - 1) (slots 0) 1

/-- Worker `w`'s local accumulator in `ParallelReduce<RangePolicy>::execute`
with Static scheduling: `final_reducer.init` on its pool-reduce slot, then
`exec_range` over its static partition of `[begin, end)`. -/
def reduceSlot {α : Type} (R : Reducer α) (f : ℤ → α → α) (b e : ℤ)
    (chunk pool w : ℕ) : α :=
  execRange f b (sliceList (e - b).toNat chunk pool w) R.init

/-- ParallelReduce<RangePolicy>::execute (Static schedule): the empty-policy
guard (`end() <= begin()` writes `init` then `final` to the destination and
returns), otherwise per-worker partitioned accumulation followed by the
sequential ascending-rank merge and `final`. -/
def runReduce {α : Type} (R : Reducer α) (f : ℤ → α → α) (b e : ℤ)
    (chunk pool : ℕ) : α :=
  if e ≤ b then R.final R.init
  else R.final (mergeSlots R.join (reduceSlot R f b e chunk pool) pool)

/-- Number of functor invocations performed by `runReduce` (zero on the
empty-policy guard path, one per assigned index otherwise). -/
def runReduceCount (b e : ℤ) (chunk pool : ℕ) : ℕ :=
  if e ≤ b then 0
  else ((List.range pool).map
    (fun w => (sliceList (e - b).toNat chunk pool w).length)).sum

/-- The addition Reducer over `ℤ`: identity 0, join is addition, final a
plain copy. -/
def addReducer : Reducer ℤ := ⟨0, fun x y => x + y, id⟩

/-- ParallelReduce<RangePolicy>::execute under Dynamic scheduling for one
run whose chunk-claim outcome is `claimant`: same guard, per-worker
accumulation over the chunks that worker won, same ascending-rank merge. -/
def runReduceDyn {α : Type} (R : Reducer α) (f : ℤ → α → α) (b e : ℤ)
    (chunk pool : ℕ) (claimant : ℕ → ℕ) : α :=
  if e ≤ b then R.final R.init
  else R.final (mergeSlots R.join
    (fun w => execRange f b (dynIndices (e - b).toNat chunk claimant w) R.init) pool)

/-- An associative (but not commutative) Reducer collecting indices in
execution order: identity is the empty list, join is concatenation. -/
def listReducer : Reducer (List ℤ) := ⟨[], fun x y => x ++ y, id⟩

/-- Global index list of the policy range `[b, e)` in ascending order. -/
def intRange (b e : ℤ) : List ℤ :=
  (List.range (e - b).toNat).map (fun (k : ℕ) => b + (k : ℤ))

/-- Observable outcome of one `ParallelFor<RangePolicy>::execute` run: the
index list traversed by each participating worker (in that worker's
execution order) and how many pool rendezvous the run performed. -/
structure ForRun where
  workerIndices : List (List ℤ)
  rendezvousCount : ℕ

/-- ParallelFor<RangePolicy>::execute.  A nested call (`in_parallel`) makes
the calling thread alone traverse the whole range sequentially
(`exec_range(functor, begin, end)`), with no partitioning and no barrier.
An empty range short-circuits with no work and no barrier participation.
Otherwise Static assigns each worker its static slice (no rendezvous);
Dynamic first publishes the partition through one pool rendezvous and then
each worker executes the cursor chunks it claims (`claimant`). -/
def runFor (b e : ℤ) (chunk pool : ℕ) (dyn inPar : Bool) (claimant : ℕ → ℕ) : ForRun :=
  if inPar then ⟨[intRange b e], 0⟩
  else if e ≤ b then ⟨[], 0⟩
  else if dyn then
    ⟨(List.range pool).map (fun w =>
        (dynIndices (e - b).toNat chunk claimant w).map (fun (k : ℕ) => b + (k : ℤ))), 1⟩
  else
    ⟨(List.range pool).map (fun w =>
        (sliceList (e - b).toNat chunk pool w).map (fun (k : ℕ) => b + (k : ℤ))), 0⟩

/-- Inner loop of the scan carry walk (source: `for (int i = 0; i < n; ++i)`
with `ptr_prev`): each later worker's pair (local sum, base) gets its base
overwritten with the previous worker's base joined with the previous
worker's local sum; the local sum component is not touched. -/
def carryWalkAux {α : Type} (join : α → α → α) : α × α → List (α × α) → List (α × α)
  | _, [] => []
  | prev, q :: t => (q.1, join prev.2 prev.1) :: carryWalkAux join (q.1, join prev.2 prev.1) t

/-- The scan rendezvous carry walk performed by the barrier leader
(ParallelScan/ParallelScanWithTotal::execute): worker 0's base slot is set
to the reducer identity (`final_reducer.init(ptr + value_count)`); worker
i's base becomes the previous worker's base joined with the previous
worker's local sum.  Input: each worker's (local sum, uninitialized base)
pair, in rank order. -/
def carryWalk {α : Type} (init : α) (join : α → α → α) : List (α × α) → List (α × α)
  | [] => []
  | q :: t => (q.1, init) :: carryWalkAux join (q.1, init) t

/-- Reference form of the carry bases: the running left fold of the sums. -/
def basesList {α : Type} (join : α → α → α) : α → List α → List α
  | _, [] => []
  | bse, s :: t => bse :: basesList join (join bse s) t

/-- Final (output) pass of the scan over one worker's slice for an addition
scan functor: at each index the functor observes the accumulator — the
exclusive prefix, recorded as that index's output — and then adds the
index's contribution; also returns the accumulator after the slice. -/
def scanSeg (g2 : ℕ → ℤ) : ℤ → List ℕ → List ℤ × ℤ
  | acc, [] => ([], acc)
  | acc, k :: t =>
    (acc :: (scanSeg g2 (acc + g2 k) t).1, (scanSeg g2 (acc + g2 k) t).2)

/-- Pass 1 of the scan: each worker folds its contributions over its static
slice starting from the reducer identity, yielding its local inclusive sum
(`update_sum`), one slot per worker in rank order. -/
def scanSums (g2 : ℕ → ℤ) (total chunk pool : ℕ) : List ℤ :=
  (List.range pool).map
    (fun w => List.foldl (fun a k => a + g2 k) 0 (sliceList total chunk pool w))

/-- The per-worker base values after the rendezvous carry walk. -/
def scanBases (g2 : ℕ → ℤ) (total chunk pool : ℕ) : List ℤ :=
  (carryWalk 0 (fun x y => x + y)
    ((scanSums g2 total chunk pool).map (fun v => (v, 0)))).map (fun q => q.2)

/-- Pass 2 of the scan: each worker re-runs its slice seeded from its base
slot (`update_base`), producing that slice's outputs and final accumulator. -/
def scanSegs (g2 : ℕ → ℤ) (total chunk pool : ℕ) : List (List ℤ × ℤ) :=
  (List.range pool).map (fun w =>
    scanSeg g2 ((scanBases g2 total chunk pool).getD w 0) (sliceList total chunk pool w))

/-- ParallelScanWithTotal::execute for an addition scan with per-index
contribution `g`: returns the exclusive-prefix outputs over the whole range
(in index order) and the grand total, which is published exactly once, by
the highest-ranked worker (`omp_get_thread_num() == omp_get_num_threads()-1`),
as that worker's accumulator after the final pass. -/
def runScan (g : ℤ → ℤ) (b e : ℤ) (chunk pool : ℕ) : List ℤ × ℤ :=
  (((scanSegs (fun (k : ℕ) => g (b + (k : ℤ))) (e - b).toNat chunk pool).map
      (fun q => q.1)).flatten,
   (((scanSegs (fun (k : ℕ) => g (b + (k : ℤ))) (e - b).toNat chunk pool).getLast?).map
      (fun q => q.2)).getD 0)

/-- Events observable in one team member's execution of
`ParallelFor<TeamPolicy>::exec_team` over a league-rank range: functor work
on a league rank, or participation in the team rendezvous. -/
inductive TeamEvent where
  | work (r : ℕ) : TeamEvent
  | barrier : TeamEvent
deriving DecidableEq

/-- Trace of `exec_team` with `n` league ranks remaining, starting at rank
`b`: work the current rank, and if another rank follows, pass the team
rendezvous before working it (source comment: do not allow team members to
lap one another, so they do not overwrite shared memory). -/
def execTeamTraceAux (b : ℕ) : ℕ → List TeamEvent
  | 0 => []
  | 1 => [TeamEvent.work b]
  | n + 2 => TeamEvent.work b :: TeamEvent.barrier :: execTeamTraceAux (b + 1) (n + 1)

/-- Trace of one team member executing league ranks `[b, e)`. -/
def execTeamTrace (b e : ℕ) : List TeamEvent :=
  execTeamTraceAux b (e - b)

/-- Number of team rendezvous a member has completed before reaching
position `n` of its trace: the member's phase at that position. -/
def barriersBefore (tr : List TeamEvent) (n : ℕ) : ℕ :=
  (tr.take n).count TeamEvent.barrier

/-- Position of the work event for league rank `r` in a member's trace. -/
def workPos (b r : ℕ) : ℕ := 2 * (r - b)

/-- Modelled from the spec (TeamOrganizer / `organize_team`): contiguous
teams of size `team`; the number of complete teams in the pool.  Workers at
rank `numTeams * team` and beyond do not fit in a complete team and are
inactive for the region. -/
def numTeams (pool team : ℕ) : ℕ := pool / team

/-- Team index of worker `w`. -/
def teamOf (team w : ℕ) : ℕ := w / team

/-- Worker `w`'s pool-reduce slot at the end of the parallel region of
ParallelReduce<TeamPolicy>::execute: an active worker initializes its slot
and accumulates the functor over every league rank of its team's partition;
an inactive worker (no complete team) only runs `final_reducer.init` on its
slot (the else-branch in the source). -/
def teamSlot {α : Type} (R : Reducer α) (f : ℕ → ℕ → α → α)
    (league team chunk pool w : ℕ) : α :=
  if w < numTeams pool team * team then
    (sliceList league chunk (numTeams pool team) (teamOf team w)).foldl
      (fun a r => f w r a) R.init
  else R.init

/-- ParallelReduce<TeamPolicy>::execute: the `league_size() == 0 ||
team_size() == 0` guard writes `init` then `final` to the destination;
otherwise all `pool` worker slots — active or not — are merged in ascending
rank order and `final` is applied. -/
def runTeamReduce {α : Type} (R : Reducer α) (f : ℕ → ℕ → α → α)
    (league team chunk pool : ℕ) : α :=
  if league = 0 ∨ team = 0 then R.final R.init
  else R.final (mergeSlots R.join (teamSlot R f league team chunk pool) pool)

/-- Number of functor invocations performed by `runTeamReduce` (each active
worker invokes the functor once per league rank of its team's partition). -/
def runTeamReduceCount (league team chunk pool : ℕ) : ℕ :=
  if league = 0 ∨ team = 0 then 0
  else ((List.range pool).map (fun w =>
    if w < numTeams pool team * team then
      (sliceList league chunk (numTeams pool team) (teamOf team w)).length
    else 0)).sum


theorem total_le_chunk_mul_numChunks {total chunk : ℕ} (hc : 1 ≤ chunk) :
    total ≤ chunk * numChunks total chunk := by
  unfold numChunks
  rcases Nat.eq_zero_or_pos total with h0 | h1
  · simp [h0]
  · have hsplit : total + chunk - 1 = (total - 1) + chunk := by omega
    rw [hsplit, Nat.add_div_right _ (by omega), Nat.mul_add, Nat.mul_one]
    have hdm := Nat.div_add_mod (total - 1) chunk
    have hmlt : (total - 1) % chunk < chunk := Nat.mod_lt _ (by omega)
    omega

theorem chunkOffset_zero (total chunk pool : ℕ) :
    chunkOffset total chunk pool 0 = 0 := by
  simp [chunkOffset]

theorem chunkOffset_mono (total chunk pool : ℕ) {w w' : ℕ} (h : w ≤ w') :
    chunkOffset total chunk pool w ≤ chunkOffset total chunk pool w' := by
  unfold chunkOffset
  exact Nat.add_le_add (Nat.mul_le_mul_right _ h) (min_le_min h le_rfl)

theorem chunkOffset_pool {total chunk pool : ℕ} (hp : 1 ≤ pool) :
    chunkOffset total chunk pool pool = numChunks total chunk := by
  unfold chunkOffset
  have hr : numChunks total chunk % pool < pool := Nat.mod_lt _ (by omega)
  rw [min_eq_right (Nat.le_of_lt hr)]
  have := Nat.div_add_mod (numChunks total chunk) pool
  omega

theorem sliceBegin_zero (total chunk pool : ℕ) :
    sliceBegin total chunk pool 0 = 0 := by
  simp [sliceBegin, chunkOffset_zero]

theorem sliceBegin_mono (total chunk pool : ℕ) {w w' : ℕ} (h : w ≤ w') :
    sliceBegin total chunk pool w ≤ sliceBegin total chunk pool w' := by
  unfold sliceBegin
  exact min_le_min (Nat.mul_le_mul_left _ (chunkOffset_mono total chunk pool h)) le_rfl

theorem sliceBegin_le_total (total chunk pool w : ℕ) :
    sliceBegin total chunk pool w ≤ total :=
  min_le_right _ _

theorem sliceBegin_pool {total chunk pool : ℕ} (hc : 1 ≤ chunk) (hp : 1 ≤ pool) :
    sliceBegin total chunk pool pool = total := by
  unfold sliceBegin
  rw [chunkOffset_pool hp]
  exact min_eq_right (total_le_chunk_mul_numChunks hc)

/-- Telescoping: the concatenation of the first `m` workers' slices covers
exactly `[0, sliceBegin m)`. -/
theorem slices_flatten_upto (total chunk pool : ℕ) :
    ∀ m : ℕ, ((List.range m).map (sliceList total chunk pool)).flatten
      = List.range' 0 (sliceBegin total chunk pool m)
  | 0 => by simp [sliceBegin_zero]
  | m + 1 => by
    rw [List.range_succ, List.map_append, List.flatten_append,
      slices_flatten_upto total chunk pool m]
    have hmono := sliceBegin_mono total chunk pool (Nat.le_succ m)
    simp only [List.map_cons, List.map_nil, List.flatten_cons, List.flatten_nil,
      List.append_nil, sliceList, sliceLen]
    have := List.range'_append_1 0 (sliceBegin total chunk pool m)
      (sliceBegin total chunk pool (m + 1) - sliceBegin total chunk pool m)
    rw [Nat.zero_add] at this
    rw [this, Nat.sub_add_cancel hmono]

/-- C4 (core partition property): the concatenation, in ascending worker
rank order, of all `pool` static slices is exactly the index list
`[0, …, total-1]`: no index missing, none duplicated, no overlap. -/
theorem static_slices_cover (total chunk pool : ℕ) (hc : 1 ≤ chunk) (hp : 1 ≤ pool) :
    ((List.range pool).map (sliceList total chunk pool)).flatten = List.range total := by
  rw [slices_flatten_upto total chunk pool pool, sliceBegin_pool hc hp,
    List.range_eq_range']

theorem mergeFrom_eq_foldl {α : Type} (join : α → α → α) (slots : ℕ → α) :
    ∀ (m : ℕ) (acc : α) (i : ℕ),
      mergeFrom join slots m acc i = List.foldl join acc ((List.range' i m).map slots)
  | 0, acc, i => by simp [mergeFrom]
  | m + 1, acc, i => by
    rw [mergeFrom, List.range'_succ, List.map_cons, List.foldl_cons,
      mergeFrom_eq_foldl join slots m]

theorem foldl_add_eq (F : ℕ → ℤ) :
    ∀ (l : List ℕ) (a : ℤ), List.foldl (fun x k => x + F k) a l = a + (l.map F).sum
  | [], a => by simp
  | k :: t, a => by
    rw [List.foldl_cons, foldl_add_eq F t, List.map_cons, List.sum_cons]
    ring

theorem foldl_add_self :
    ∀ (l : List ℤ) (a : ℤ), List.foldl (fun x y => x + y) a l = a + l.sum
  | [], a => by simp
  | x :: t, a => by
    rw [List.foldl_cons, foldl_add_self t, List.sum_cons]
    ring

theorem reduceSlot_add (g : ℤ → ℤ) (b e : ℤ) (chunk pool w : ℕ) :
    reduceSlot addReducer (fun i a => a + g i) b e chunk pool w
      = ((sliceList (e - b).toNat chunk pool w).map (fun (k : ℕ) => g (b + (k : ℤ)))).sum := by
  unfold reduceSlot execRange addReducer
  rw [foldl_add_eq (fun (k : ℕ) => g (b + (k : ℤ)))]
  simp

/-- Sum of all worker slots equals the sum of contributions over the whole
range, via the partition property. -/
theorem slots_sum_eq (g : ℤ → ℤ) (b : ℤ) (t chunk pool : ℕ)
    (hc : 1 ≤ chunk) (hp : 1 ≤ pool) :
    ((List.range pool).map
        (fun w => ((sliceList t chunk pool w).map (fun (k : ℕ) => g (b + (k : ℤ)))).sum)).sum
      = ((List.range t).map (fun (k : ℕ) => g (b + (k : ℤ)))).sum := by
  have h1 : (List.range pool).map
        (fun w => ((sliceList t chunk pool w).map (fun (k : ℕ) => g (b + (k : ℤ)))).sum)
      = (((List.range pool).map (sliceList t chunk pool)).map
          (List.map (fun (k : ℕ) => g (b + (k : ℤ))))).map List.sum := by
    simp only [List.map_map]
    rfl
  rw [h1, ← List.sum_flatten, ← List.map_flatten, static_slices_cover t chunk pool hc hp]

/-- C1: with Static scheduling, `run_reduce` with the addition Reducer over
`[begin, end)` equals the sequential left-to-right sum of the per-index
contributions, for every range and pool size. -/
theorem run_reduce_add_eq_seq_sum (g : ℤ → ℤ) (b e : ℤ) (chunk pool : ℕ)
    (hc : 1 ≤ chunk) (hp : 1 ≤ pool) :
    runReduce addReducer (fun i a => a + g i) b e chunk pool
      = List.foldl (fun a (k : ℕ) => a + g (b + (k : ℤ))) 0 (List.range (e - b).toNat) := by
  rw [foldl_add_eq (fun (k : ℕ) => g (b + (k : ℤ))), Int.zero_add]
  by_cases hbe : e ≤ b
  · have ht : (e - b).toNat = 0 := Int.toNat_of_nonpos (by omega)
    simp [runReduce, hbe, ht, addReducer]
  · unfold runReduce mergeSlots
    rw [if_neg hbe, mergeFrom_eq_foldl]
    have hslots := slots_sum_eq g b (e - b).toNat chunk pool hc hp
    have hrange : List.range pool = 0 :: List.range' 1 (pool - 1) := by
      conv_lhs => rw [List.range_eq_range', show pool = (pool - 1) + 1 by omega]
      rw [List.range'_succ]
    rw [hrange] at hslots
    simp only [List.map_cons, List.sum_cons] at hslots
    have hmap : (List.range' 1 (pool - 1)).map
          (reduceSlot addReducer (fun i a => a + g i) b e chunk pool)
        = (List.range' 1 (pool - 1)).map
            (fun w => ((sliceList (e - b).toNat chunk pool w).map
              (fun (k : ℕ) => g (b + (k : ℤ)))).sum) :=
      List.map_congr_left (fun w _ => reduceSlot_add g b e chunk pool w)
    rw [hmap, reduceSlot_add]
    show addReducer.final _ = _
    simp only [addReducer]
    rw [foldl_add_self]
    simpa using hslots

/-- Witness for C1: N = 10 with value index+1 and pool size 4 yields 55. -/
theorem run_reduce_add_eq_seq_sum_witness :
    runReduce addReducer (fun i a => a + (i + 1)) 0 10 1 4 = 55 :=
  (run_reduce_add_eq_seq_sum (fun i => i + 1) 0 10 1 4 (by omega) (by omega)).trans
    (by decide)

/-- C4: for every total in [0,10000], chunk_size in [1,64] and pool_size in
[1,32], the Static per-worker slices form a partition of [0,total): their
concatenation in ascending rank order is exactly the index list
[0,…,total-1] — union [0,total), no overlap, no gap. -/
theorem static_slices_partition (total chunk pool : ℕ)
    (_htot : total ≤ 10000) (hc1 : 1 ≤ chunk) (_hc2 : chunk ≤ 64)
    (hp1 : 1 ≤ pool) (_hp2 : pool ≤ 32) :
    ((List.range pool).map (sliceList total chunk pool)).flatten = List.range total :=
  static_slices_cover total chunk pool hc1 hp1

/-- Witness for C4 at total 100, chunk 64, pool 32. -/
theorem static_slices_partition_witness :
    ((List.range 32).map (sliceList 100 64 32)).flatten = List.range 100 :=
  static_slices_partition 100 64 32 (by omega) (by omega) (by omega) (by omega) (by omega)

/-- The cursor chunks also cover the range exactly once, in cursor order. -/
theorem chunks_cover (total chunk : ℕ) (hc : 1 ≤ chunk) :
    ((List.range (numChunks total chunk)).map (chunkList total chunk)).flatten
      = List.range total := by
  rcases Nat.eq_zero_or_pos (numChunks total chunk) with h0 | h1
  · have hle := @total_le_chunk_mul_numChunks total chunk hc
    rw [h0, Nat.mul_zero] at hle
    have ht : total = 0 := by omega
    rw [h0, ht]
    rfl
  · exact static_slices_cover total chunk (numChunks total chunk) hc h1

/-- C6 counterexample: with Dynamic scheduling, two runs with the same
functor, policy and thread count but different chunk-claim outcomes give
different results for an associative (non-commutative) Reducer, despite the
fixed ascending-rank merge order. -/
theorem run_reduce_dyn_not_schedule_independent :
    runReduceDyn listReducer (fun i a => a ++ [i]) 0 2 1 2 (fun k => k % 2)
      ≠ runReduceDyn listReducer (fun i a => a ++ [i]) 0 2 1 2 (fun k => (k + 1) % 2) := by
  decide

/-- C6 amended: the cross-worker merge of run_reduce is a single-threaded,
strictly sequential left fold in ascending worker-rank order —
join(worker 0, worker 1), then join(result, worker 2), and so on; with
Static scheduling the result is therefore a function of the functor, policy
and pool size alone, identical across repeated runs, while with Dynamic
scheduling the result may additionally depend on the run's chunk-claim
outcome. -/
theorem run_reduce_merge_ascending {α : Type} (R : Reducer α) (f : ℤ → α → α)
    (b e : ℤ) (chunk pool : ℕ) (hbe : b < e) :
    runReduce R f b e chunk pool
      = R.final (List.foldl R.join (reduceSlot R f b e chunk pool 0)
          ((List.range' 1 (pool - 1)).map (reduceSlot R f b e chunk pool))) := by
  unfold runReduce mergeSlots
  rw [if_neg (by omega), mergeFrom_eq_foldl]

/-- Witness for the amended C6. -/
theorem run_reduce_merge_ascending_witness :
    runReduce addReducer (fun i a => a + i) 0 3 1 2
      = addReducer.final (List.foldl addReducer.join
          (reduceSlot addReducer (fun i a => a + i) 0 3 1 2 0)
          ((List.range' 1 (2 - 1)).map (reduceSlot addReducer (fun i a => a + i) 0 3 1 2))) :=
  run_reduce_merge_ascending addReducer (fun i a => a + i) 0 3 1 2 (by omega)

/-- C8: run_reduce with an empty range (the `end() <= begin()` guard, which
subsumes begin == end) performs zero functor invocations and writes the
Reducer identity — init then final, with no joins — to the destination; the
team variant with league_size == 0 or team_size == 0 does the same. -/
theorem empty_reduce_writes_identity {α : Type} (R : Reducer α) (f : ℤ → α → α)
    (fT : ℕ → ℕ → α → α) (b e : ℤ) (chunk pool league team : ℕ) :
    (e ≤ b →
      runReduce R f b e chunk pool = R.final R.init ∧ runReduceCount b e chunk pool = 0)
    ∧ (league = 0 ∨ team = 0 →
      runTeamReduce R fT league team chunk pool = R.final R.init
        ∧ runTeamReduceCount league team chunk pool = 0) := by
  refine ⟨fun h => ⟨?_, ?_⟩, fun h => ⟨?_, ?_⟩⟩
  · simp [runReduce, h]
  · simp [runReduceCount, h]
  · simp [runTeamReduce, h]
  · simp [runTeamReduceCount, h]

/-- Witness for C8: begin == end == 3 and a zero-size league. -/
theorem empty_reduce_writes_identity_witness :
    (runReduce addReducer (fun i a => a + i) 3 3 1 2 = addReducer.final addReducer.init
      ∧ runReduceCount 3 3 1 2 = 0)
    ∧ (runTeamReduce addReducer (fun _ r a => a + (r : ℤ)) 0 2 1 4
          = addReducer.final addReducer.init
      ∧ runTeamReduceCount 0 2 1 4 = 0) :=
  ⟨(empty_reduce_writes_identity addReducer (fun i a => a + i)
      (fun _ r a => a + (r : ℤ)) 3 3 1 2 0 2).1 (by omega),
   (empty_reduce_writes_identity addReducer (fun i a => a + i)
      (fun _ r a => a + (r : ℤ)) 3 3 1 2 0 2).2 (Or.inl rfl)⟩

/-- C9: run_for invoked from inside an already-open parallel region makes
the calling thread itself execute the callback for every index of
[begin,end) sequentially in ascending order — a single participant
traversing the entire range, with no partitioning across workers and no
barrier participation. -/
theorem run_for_nested_sequential (b e : ℤ) (chunk pool : ℕ) (dyn : Bool)
    (claimant : ℕ → ℕ) :
    (runFor b e chunk pool dyn true claimant).workerIndices = [intRange b e]
    ∧ (runFor b e chunk pool dyn true claimant).rendezvousCount = 0 :=
  ⟨rfl, rfl⟩


/-- Inserting one extra element into the bucket of `w0` permutes the
concatenation of all buckets by a single cons. -/
theorem flatten_insert_bucket (F : ℕ → List ℕ) (a w0 : ℕ) :
    ∀ ws : List ℕ, w0 ∈ ws → ws.Nodup →
      List.Perm ((ws.map (fun w => if w0 = w then a :: F w else F w)).flatten)
        (a :: (ws.map F).flatten)
  | [], h, _ => absurd h (List.not_mem_nil w0)
  | u :: us, h, hnd => by
    rcases List.nodup_cons.mp hnd with ⟨huNot, hnd2⟩
    by_cases hw : w0 = u
    · subst hw
      rw [List.map_cons, if_pos rfl, List.flatten_cons, List.map_cons, List.flatten_cons]
      have hmap : us.map (fun w => if w0 = w then a :: F w else F w) = us.map F := by
        apply List.map_congr_left
        intro w hwmem
        have hne : ¬ (w0 = w) := by
          intro hh
          rw [hh] at huNot
          exact huNot hwmem
        rw [if_neg hne]
      rw [hmap]
      exact List.Perm.refl _
    · have hmem : w0 ∈ us := by
        rcases List.mem_cons.mp h with h1 | h2
        · exact absurd h1 hw
        · exact h2
      rw [List.map_cons, if_neg hw, List.flatten_cons, List.map_cons, List.flatten_cons]
      exact (List.Perm.append_left (F u)
          (flatten_insert_bucket F a w0 us hmem hnd2)).trans List.perm_middle

/-- Grouping a list of chunk ids by their claiming worker and concatenating
the groups in worker order permutes the original claim order. -/
theorem buckets_flatten_perm (claimant : ℕ → ℕ) (pool : ℕ) :
    ∀ l : List ℕ, (∀ k ∈ l, claimant k < pool) →
      List.Perm (((List.range pool).map
          (fun w => l.filter (fun k => claimant k = w))).flatten) l
  | [], _ => by simp
  | a :: t, h => by
    have ha : claimant a < pool := h a (List.mem_cons_self a t)
    have ht : ∀ k ∈ t, claimant k < pool := fun k hk => h k (List.mem_cons_of_mem a hk)
    have hstep : (List.range pool).map (fun w => (a :: t).filter (fun k => claimant k = w))
        = (List.range pool).map (fun w => if claimant a = w
            then a :: t.filter (fun k => claimant k = w)
            else t.filter (fun k => claimant k = w)) := by
      apply List.map_congr_left
      intro w _
      simp only [List.filter_cons, decide_eq_true_eq]
    rw [hstep]
    exact (flatten_insert_bucket (fun w => t.filter (fun k => claimant k = w)) a
        (claimant a) (List.range pool) (List.mem_range.mpr ha) (List.nodup_range pool)).trans
      ((buckets_flatten_perm claimant pool t ht).cons a)

/-- C3: for either schedule, run_for invokes the callback exactly once for
every index in [begin,end) — the concatenation of all workers' executed
index lists is a permutation of the range, so no index is executed by two
workers and none is skipped — and when begin >= end it performs zero
callback invocations and participates in no rendezvous. -/
theorem run_for_exactly_once (b e : ℤ) (chunk pool : ℕ) (dyn : Bool)
    (claimant : ℕ → ℕ) (hc : 1 ≤ chunk) (hp : 1 ≤ pool)
    (hcl : ∀ k, claimant k < pool) :
    List.Perm ((runFor b e chunk pool dyn false claimant).workerIndices.flatten)
      (intRange b e)
    ∧ (e ≤ b →
        (runFor b e chunk pool dyn false claimant).workerIndices = []
        ∧ (runFor b e chunk pool dyn false claimant).rendezvousCount = 0) := by
  constructor
  · by_cases hbe : e ≤ b
    · have h1 : runFor b e chunk pool dyn false claimant = ⟨[], 0⟩ := by
        simp [runFor, hbe]
      have h2 : intRange b e = [] := by
        unfold intRange
        rw [Int.toNat_of_nonpos (by omega)]
        rfl
      rw [h1, h2]
      exact List.Perm.refl _
    · cases dyn with
      | false =>
        have hWI : (runFor b e chunk pool false false claimant).workerIndices
            = (List.range pool).map (fun w =>
                (sliceList (e - b).toNat chunk pool w).map (fun (k : ℕ) => b + (k : ℤ))) := by
          simp [runFor, hbe]
        rw [hWI]
        have h1 : (List.range pool).map (fun w =>
              (sliceList (e - b).toNat chunk pool w).map (fun (k : ℕ) => b + (k : ℤ)))
            = ((List.range pool).map (sliceList (e - b).toNat chunk pool)).map
                (List.map (fun (k : ℕ) => b + (k : ℤ))) := by
          simp only [List.map_map]
          rfl
        rw [h1, ← List.map_flatten, static_slices_cover _ _ _ hc hp]
        exact List.Perm.refl _
      | true =>
        have hWI : (runFor b e chunk pool true false claimant).workerIndices
            = (List.range pool).map (fun w =>
                (dynIndices (e - b).toNat chunk claimant w).map
                  (fun (k : ℕ) => b + (k : ℤ))) := by
          simp [runFor, hbe]
        rw [hWI]
        have h1 : (List.range pool).map (fun w =>
              (dynIndices (e - b).toNat chunk claimant w).map (fun (k : ℕ) => b + (k : ℤ)))
            = ((List.range pool).map (dynIndices (e - b).toNat chunk claimant)).map
                (List.map (fun (k : ℕ) => b + (k : ℤ))) := by
          simp only [List.map_map]
          rfl
        rw [h1, ← List.map_flatten]
        have h2 : intRange b e = (List.range (e - b).toNat).map (fun (k : ℕ) => b + (k : ℤ)) := rfl
        rw [h2]
        apply List.Perm.map
        have h3 : (List.range pool).map (dynIndices (e - b).toNat chunk claimant)
            = (((List.range pool).map (fun w =>
                (List.range (numChunks (e - b).toNat chunk)).filter
                  (fun k => claimant k = w))).map
                (List.map (chunkList (e - b).toNat chunk))).map List.flatten := by
          simp only [List.map_map]
          rfl
        rw [h3, ← List.flatten_flatten, ← List.map_flatten]
        have h4 := (buckets_flatten_perm claimant pool
            (List.range (numChunks (e - b).toNat chunk))
            (fun k _ => hcl k)).map (chunkList (e - b).toNat chunk)
        have h5 := h4.flatten
        rw [chunks_cover (e - b).toNat chunk hc] at h5
        exact h5
  · intro hbe
    constructor
    · simp [runFor, hbe]
    · simp [runFor, hbe]

/-- Witness for C3: range [0,5), chunk 2, pool 2, Dynamic, alternating
claims. -/
theorem run_for_exactly_once_witness :
    List.Perm ((runFor 0 5 2 2 true false (fun k => k % 2)).workerIndices.flatten)
      (intRange 0 5)
    ∧ ((5 : ℤ) ≤ 0 →
        (runFor 0 5 2 2 true false (fun k => k % 2)).workerIndices = []
        ∧ (runFor 0 5 2 2 true false (fun k => k % 2)).rendezvousCount = 0) :=
  run_for_exactly_once 0 5 2 2 true (fun k => k % 2) (by omega) (by omega)
    (fun k => Nat.mod_lt k (by omega))

theorem carryWalkAux_length {α : Type} (join : α → α → α) :
    ∀ (l : List (α × α)) (prev : α × α),
      (carryWalkAux join prev l).length = l.length
  | [], _ => rfl
  | q :: t, prev => by
    simp only [carryWalkAux, List.length_cons,
      carryWalkAux_length join t (q.1, join prev.2 prev.1)]

theorem carryWalk_length {α : Type} (init : α) (join : α → α → α) :
    ∀ slots : List (α × α), (carryWalk init join slots).length = slots.length
  | [] => rfl
  | q :: t => by
    simp only [carryWalk, List.length_cons, carryWalkAux_length join t (q.1, init)]

theorem carryWalkAux_map_fst {α : Type} (join : α → α → α) :
    ∀ (l : List (α × α)) (prev : α × α),
      (carryWalkAux join prev l).map (fun q => q.1) = l.map (fun q => q.1)
  | [], _ => rfl
  | q :: t, prev => by
    simp only [carryWalkAux, List.map_cons,
      carryWalkAux_map_fst join t (q.1, join prev.2 prev.1)]

theorem carryWalk_map_fst {α : Type} (init : α) (join : α → α → α) :
    ∀ slots : List (α × α),
      (carryWalk init join slots).map (fun q => q.1) = slots.map (fun q => q.1)
  | [] => rfl
  | q :: t => by
    simp only [carryWalk, List.map_cons, carryWalkAux_map_fst join t (q.1, init)]

theorem carryWalkAux_getElem_snd {α : Type} (join : α → α → α) :
    ∀ (l : List (α × α)) (prev : α × α) (i : ℕ)
      (h : i < (carryWalkAux join prev l).length),
      ((carryWalkAux join prev l)[i]).2
        = List.foldl join (join prev.2 prev.1) ((l.map (fun q => q.1)).take i)
  | [], _, i, h => absurd h (by simp [carryWalkAux])
  | q :: t, prev, 0, h => rfl
  | q :: t, prev, i + 1, h => by
    have h2 : i < (carryWalkAux join (q.1, join prev.2 prev.1) t).length := by
      simp only [carryWalkAux, List.length_cons] at h
      omega
    simp only [carryWalkAux, List.getElem_cons_succ]
    rw [carryWalkAux_getElem_snd join t (q.1, join prev.2 prev.1) i h2]
    rfl

theorem carryWalk_getElem_snd {α : Type} (init : α) (join : α → α → α) :
    ∀ (slots : List (α × α)) (i : ℕ) (h : i < (carryWalk init join slots).length),
      ((carryWalk init join slots)[i]).2
        = List.foldl join init ((slots.map (fun q => q.1)).take i)
  | [], i, h => absurd h (by simp [carryWalk])
  | q :: t, 0, h => rfl
  | q :: t, i + 1, h => by
    have h2 : i < (carryWalkAux join (q.1, init) t).length := by
      simp only [carryWalk, List.length_cons] at h
      omega
    simp only [carryWalk, List.getElem_cons_succ]
    rw [carryWalkAux_getElem_snd join t (q.1, init) i h2]
    rfl

/-- C5: after the rendezvous carry walk and before the output pass, worker
i's base slot holds the left fold, in ascending rank order, of the local
inclusive sums of workers 0..i-1 starting from the reducer identity (so
worker 0's base is the identity), and every worker's own local inclusive
sum is left unchanged by the walk. -/
theorem scan_carry_walk_bases {α : Type} (init : α) (join : α → α → α)
    (slots : List (α × α)) (i : ℕ) (h : i < (carryWalk init join slots).length) :
    ((carryWalk init join slots)[i]).2
        = List.foldl join init ((slots.map (fun q => q.1)).take i)
    ∧ (carryWalk init join slots).map (fun q => q.1) = slots.map (fun q => q.1) :=
  ⟨carryWalk_getElem_snd init join slots i h, carryWalk_map_fst init join slots⟩

/-- Witness for C5: three workers with local sums 1, 2, 3 (and garbage in
the base slots); worker 2's base becomes 0+1+2 = 3 and the sums survive. -/
theorem scan_carry_walk_bases_witness :
    ((carryWalk (0 : ℤ) (fun x y => x + y) [(1, 77), (2, 88), (3, 99)])[2]).2
        = List.foldl (fun x y => x + y) 0
            (([((1 : ℤ), (77 : ℤ)), (2, 88), (3, 99)].map (fun q => q.1)).take 2)
    ∧ (carryWalk (0 : ℤ) (fun x y => x + y) [(1, 77), (2, 88), (3, 99)]).map
          (fun q => q.1)
        = [((1 : ℤ), (77 : ℤ)), (2, 88), (3, 99)].map (fun q => q.1) :=
  scan_carry_walk_bases 0 (fun x y => x + y) [(1, 77), (2, 88), (3, 99)] 2 (by decide)

/-- Closed form of the output pass over one contiguous slice: at each index
`m` of the slice the recorded output is the seed plus the contributions of
the slice's indices before `m`, and the final accumulator is the seed plus
the whole slice's contribution. -/
theorem scanSeg_range' (g2 : ℕ → ℤ) :
    ∀ (n s : ℕ) (a : ℤ),
      scanSeg g2 a (List.range' s n)
        = ((List.range' s n).map
            (fun m => a + ((List.range' s (m - s)).map g2).sum),
           a + ((List.range' s n).map g2).sum)
  | 0, s, a => by simp [scanSeg]
  | n + 1, s, a => by
    rw [List.range'_succ]
    show (a :: (scanSeg g2 (a + g2 s) (List.range' (s + 1) n)).1,
          (scanSeg g2 (a + g2 s) (List.range' (s + 1) n)).2)
        = ((s :: List.range' (s + 1) n).map
            (fun m => a + ((List.range' s (m - s)).map g2).sum),
           a + ((s :: List.range' (s + 1) n).map g2).sum)
    rw [scanSeg_range' g2 n (s + 1) (a + g2 s)]
    simp only [List.map_cons, List.sum_cons, Prod.mk.injEq]
    constructor
    · simp only [Nat.sub_self, List.range'_zero, List.map_nil, List.sum_nil, add_zero]
      congr 1
      apply List.map_congr_left
      intro m hm
      have hsm : s + 1 ≤ m := (List.mem_range'_1.mp hm).1
      have hms : m - s = (m - s - 1) + 1 := by omega
      have hms2 : m - (s + 1) = m - s - 1 := by omega
      rw [hms, List.range'_succ, List.map_cons, List.sum_cons, hms2, add_assoc]
    · ring

/-- Prefix sums concatenate: the contributions over `[0,s)` plus those over
`[s, s+n)` are the contributions over `[0, s+n)`. -/
theorem sum_range'_extend (g2 : ℕ → ℤ) (s n : ℕ) :
    ((List.range' 0 s).map g2).sum + ((List.range' s n).map g2).sum
      = ((List.range' 0 (s + n)).map g2).sum := by
  rw [← List.sum_append, ← List.map_append]
  have h := List.range'_append_1 0 s n
  rw [Nat.zero_add] at h
  rw [h, Nat.add_comm n s]

/-- Sum of the first `m` workers' slice contributions is the prefix
contribution up to `sliceBegin m`. -/
theorem slice_sums_upto (g2 : ℕ → ℤ) (t chunk pool m : ℕ) :
    ((List.range m).map (fun w => ((sliceList t chunk pool w).map g2).sum)).sum
      = ((List.range' 0 (sliceBegin t chunk pool m)).map g2).sum := by
  have h1 : (List.range m).map (fun w => ((sliceList t chunk pool w).map g2).sum)
      = (((List.range m).map (sliceList t chunk pool)).map (List.map g2)).map List.sum := by
    simp only [List.map_map]
    rfl
  rw [h1, ← List.sum_flatten, ← List.map_flatten, slices_flatten_upto]

theorem scanSums_eq (g2 : ℕ → ℤ) (t chunk pool : ℕ) :
    scanSums g2 t chunk pool
      = (List.range pool).map (fun w => ((sliceList t chunk pool w).map g2).sum) := by
  unfold scanSums
  apply List.map_congr_left
  intro w _
  rw [foldl_add_eq g2]
  simp

/-- The base published into worker `w`'s slot by the carry walk is the
prefix contribution of all indices before its slice. -/
theorem scanBases_getD (g2 : ℕ → ℤ) (t chunk pool w : ℕ) (hw : w < pool) :
    (scanBases g2 t chunk pool).getD w 0
      = ((List.range' 0 (sliceBegin t chunk pool w)).map g2).sum := by
  unfold scanBases
  have hlen : w < (carryWalk 0 (fun x y => x + y)
      ((scanSums g2 t chunk pool).map (fun v => (v, 0)))).length := by
    rw [carryWalk_length, List.length_map]
    unfold scanSums
    rw [List.length_map, List.length_range]
    exact hw
  rw [List.getD_eq_getElem?_getD, List.getElem?_map, List.getElem?_eq_getElem hlen]
  simp only [Option.map_some', Option.getD_some]
  rw [carryWalk_getElem_snd 0 (fun x y => x + y) _ w hlen]
  have hfst : ((scanSums g2 t chunk pool).map (fun v => (v, (0 : ℤ)))).map
        (fun q => q.1) = scanSums g2 t chunk pool := by
    rw [List.map_map]
    exact List.map_id'' (fun x => rfl) _
  rw [hfst, foldl_add_self, zero_add, scanSums_eq, ← List.map_take, List.take_range,
    min_eq_left (Nat.le_of_lt hw)]
  exact slice_sums_upto g2 t chunk pool w

/-- Worker `w`'s output-pass segment: outputs are the global exclusive
prefix contributions at its slice's indices; the final accumulator is the
global prefix through the end of its slice. -/
theorem scanSeg_slice (g2 : ℕ → ℤ) (t chunk pool w : ℕ) (hw : w < pool) :
    scanSeg g2 ((scanBases g2 t chunk pool).getD w 0) (sliceList t chunk pool w)
      = ((sliceList t chunk pool w).map
          (fun m => ((List.range' 0 m).map g2).sum),
         ((List.range' 0 (sliceBegin t chunk pool (w + 1))).map g2).sum) := by
  rw [scanBases_getD g2 t chunk pool w hw]
  show scanSeg g2 _ (List.range' (sliceBegin t chunk pool w) (sliceLen t chunk pool w)) = _
  rw [scanSeg_range' g2 (sliceLen t chunk pool w) (sliceBegin t chunk pool w)]
  simp only [Prod.mk.injEq]
  constructor
  · apply List.map_congr_left
    intro m hm
    have hbm : sliceBegin t chunk pool w ≤ m := (List.mem_range'_1.mp hm).1
    rw [sum_range'_extend g2 (sliceBegin t chunk pool w) (m - sliceBegin t chunk pool w),
      Nat.add_sub_cancel' hbm]
  · rw [sum_range'_extend g2 (sliceBegin t chunk pool w) (sliceLen t chunk pool w)]
    unfold sliceLen
    rw [Nat.add_sub_cancel' (sliceBegin_mono t chunk pool (Nat.le_succ w))]

/-- C2: for every pool size, run_scan computes the exclusive prefix scan —
the output recorded at each index of [begin,end) is the fold of all earlier
indices' contributions, the identity at the first index — and the grand
total published (exactly once, by the highest-ranked worker, as its
final-pass accumulator) is the inclusive sum of the whole range. -/
theorem run_scan_exclusive_and_total (g : ℤ → ℤ) (b e : ℤ) (chunk pool : ℕ)
    (hc : 1 ≤ chunk) (hp : 1 ≤ pool) :
    (runScan g b e chunk pool).1
        = (List.range (e - b).toNat).map
            (fun (m : ℕ) => ((List.range m).map (fun (k : ℕ) => g (b + (k : ℤ)))).sum)
    ∧ (runScan g b e chunk pool).2
        = ((List.range (e - b).toNat).map (fun (k : ℕ) => g (b + (k : ℤ)))).sum := by
  constructor
  · show ((scanSegs (fun (k : ℕ) => g (b + (k : ℤ))) (e - b).toNat chunk pool).map
        (fun q => q.1)).flatten = _
    have hsegs : (scanSegs (fun (k : ℕ) => g (b + (k : ℤ))) (e - b).toNat chunk pool).map
          (fun q => q.1)
        = (List.range pool).map (fun w =>
            (sliceList (e - b).toNat chunk pool w).map
              (fun m => ((List.range' 0 m).map (fun (k : ℕ) => g (b + (k : ℤ)))).sum)) := by
      unfold scanSegs
      rw [List.map_map]
      apply List.map_congr_left
      intro w hw
      show (scanSeg _ _ _).1 = _
      rw [scanSeg_slice _ (e - b).toNat chunk pool w (List.mem_range.mp hw)]
    rw [hsegs]
    have h1 : (List.range pool).map (fun w =>
          (sliceList (e - b).toNat chunk pool w).map
            (fun m => ((List.range' 0 m).map (fun (k : ℕ) => g (b + (k : ℤ)))).sum))
        = (((List.range pool).map (sliceList (e - b).toNat chunk pool)).map
            (List.map (fun m => ((List.range' 0 m).map
              (fun (k : ℕ) => g (b + (k : ℤ)))).sum))) := by
      simp only [List.map_map]
      rfl
    rw [h1, ← List.map_flatten, static_slices_cover _ _ _ hc hp]
    apply List.map_congr_left
    intro m _
    rw [List.range_eq_range']
  · show (((scanSegs (fun (k : ℕ) => g (b + (k : ℤ))) (e - b).toNat chunk pool).getLast?).map
        (fun q => q.2)).getD 0 = _
    have hlen : (scanSegs (fun (k : ℕ) => g (b + (k : ℤ))) (e - b).toNat chunk pool).length
        = pool := by
      unfold scanSegs
      rw [List.length_map, List.length_range]
    have hlt : pool - 1 < (scanSegs (fun (k : ℕ) => g (b + (k : ℤ)))
        (e - b).toNat chunk pool).length := by omega
    rw [List.getLast?_eq_getElem?, hlen, List.getElem?_eq_getElem hlt]
    simp only [Option.map_some', Option.getD_some]
    have helem : (scanSegs (fun (k : ℕ) => g (b + (k : ℤ))) (e - b).toNat chunk pool)[pool - 1]
        = scanSeg (fun (k : ℕ) => g (b + (k : ℤ)))
            ((scanBases (fun (k : ℕ) => g (b + (k : ℤ))) (e - b).toNat chunk pool).getD
              (pool - 1) 0)
            (sliceList (e - b).toNat chunk pool (pool - 1)) := by
      unfold scanSegs
      rw [List.getElem_map, List.getElem_range]
    rw [helem, scanSeg_slice _ (e - b).toNat chunk pool (pool - 1) (by omega)]
    show ((List.range' 0 (sliceBegin (e - b).toNat chunk pool (pool - 1 + 1))).map
        (fun (k : ℕ) => g (b + (k : ℤ)))).sum = _
    have hp1 : pool - 1 + 1 = pool := by omega
    rw [hp1, sliceBegin_pool hc hp, List.range_eq_range']

/-- Witness for C2: input [1,2,3,4] (contribution index+1 on [0,4)), pool 2:
exclusive prefixes [0,1,3,6] and published total 10. -/
theorem run_scan_exclusive_and_total_witness :
    (runScan (fun i => i + 1) 0 4 1 2).1 = [0, 1, 3, 6]
    ∧ (runScan (fun i => i + 1) 0 4 1 2).2 = 10 := by
  have h := run_scan_exclusive_and_total (fun i => i + 1) 0 4 1 2 (by omega) (by omega)
  exact ⟨h.1.trans (by decide), h.2.trans (by decide)⟩

theorem count_barrier_cons_work (r : ℕ) (l : List TeamEvent) :
    (TeamEvent.work r :: l).count TeamEvent.barrier = l.count TeamEvent.barrier :=
  List.count_cons_of_ne (fun h => TeamEvent.noConfusion h) l

/-- Structure of the exec_team trace with `n` ranks remaining from rank
`b`: the `k`-th work event sits at position `2k`, a team rendezvous
immediately follows whenever another rank remains, and exactly `k`
rendezvous precede the `k`-th work event. -/
theorem execTeamTraceAux_spec :
    ∀ (n b k : ℕ), k < n →
      (execTeamTraceAux b n)[2 * k]? = some (TeamEvent.work (b + k))
      ∧ (k + 1 < n →
          (execTeamTraceAux b n)[2 * k + 1]? = some TeamEvent.barrier)
      ∧ barriersBefore (execTeamTraceAux b n) (2 * k) = k
  | 0, b, k, hk => absurd hk (Nat.not_lt_zero k)
  | 1, b, k, hk => by
    have hk0 : k = 0 := by omega
    subst hk0
    refine ⟨rfl, fun h => absurd h (by omega), rfl⟩
  | n + 2, b, 0, hk => by
    have hunfold : execTeamTraceAux b (n + 2)
        = TeamEvent.work b :: TeamEvent.barrier :: execTeamTraceAux (b + 1) (n + 1) := rfl
    refine ⟨?_, fun _ => ?_, ?_⟩
    · rw [hunfold]
      simp
    · rw [hunfold]
      simp
    · rfl
  | n + 2, b, j + 1, hk => by
    have hunfold : execTeamTraceAux b (n + 2)
        = TeamEvent.work b :: TeamEvent.barrier :: execTeamTraceAux (b + 1) (n + 1) := rfl
    have hj : j < n + 1 := by omega
    obtain ⟨ih1, ih2, ih3⟩ := execTeamTraceAux_spec (n + 1) (b + 1) j hj
    have h2 : 2 * (j + 1) = 2 * j + 1 + 1 := by omega
    refine ⟨?_, ?_, ?_⟩
    · rw [hunfold, h2, List.getElem?_cons_succ, List.getElem?_cons_succ, ih1]
      have hb : b + 1 + j = b + (j + 1) := by omega
      rw [hb]
    · intro hlt
      rw [hunfold, h2, List.getElem?_cons_succ, List.getElem?_cons_succ]
      exact ih2 (by omega)
    · rw [h2]
      unfold barriersBefore
      rw [hunfold, List.take_succ_cons, List.take_succ_cons,
        count_barrier_cons_work, List.count_cons_self]
      unfold barriersBefore at ih3
      rw [ih3]

/-- C7: each team member's exec_team trace works league rank r at position
2(r-b), passes exactly one team rendezvous before working rank r+1, and the
member's phase (number of completed rendezvous) at rank r+1's work is one
more than at rank r's work.  All members of a team run this same trace over
the same rank range, and the rendezvous releases a member only after every
member has arrived, so no member reaches phase p+1 — where rank r+1 first
writes the team-shared scratch — until every member has finished its
phase-p work on rank r and rendezvoused past it. -/
theorem team_scratch_protected (b e r : ℕ) (hbr : b ≤ r) (hre : r + 1 < e) :
    (execTeamTrace b e)[workPos b r]? = some (TeamEvent.work r)
    ∧ (execTeamTrace b e)[workPos b (r + 1)]? = some (TeamEvent.work (r + 1))
    ∧ (execTeamTrace b e)[workPos b r + 1]? = some TeamEvent.barrier
    ∧ barriersBefore (execTeamTrace b e) (workPos b (r + 1))
        = barriersBefore (execTeamTrace b e) (workPos b r) + 1 := by
  have hk : r - b < e - b := by omega
  have hk2 : r + 1 - b < e - b := by omega
  obtain ⟨h1, h2, h3⟩ := execTeamTraceAux_spec (e - b) b (r - b) hk
  obtain ⟨h4, h5, h6⟩ := execTeamTraceAux_spec (e - b) b (r + 1 - b) hk2
  have hr : b + (r - b) = r := by omega
  have hr1 : b + (r + 1 - b) = r + 1 := by omega
  rw [hr] at h1
  rw [hr1] at h4
  refine ⟨h1, h4, h2 (by omega), ?_⟩
  show barriersBefore (execTeamTraceAux b (e - b)) (2 * (r + 1 - b))
      = barriersBefore (execTeamTraceAux b (e - b)) (2 * (r - b)) + 1
  rw [h3, h6]
  omega

/-- Witness for C7 at b = 0, e = 5, r = 2. -/
theorem team_scratch_protected_witness :
    (execTeamTrace 0 5)[workPos 0 2]? = some (TeamEvent.work 2)
    ∧ (execTeamTrace 0 5)[workPos 0 3]? = some (TeamEvent.work 3)
    ∧ (execTeamTrace 0 5)[workPos 0 2 + 1]? = some TeamEvent.barrier
    ∧ barriersBefore (execTeamTrace 0 5) (workPos 0 3)
        = barriersBefore (execTeamTrace 0 5) (workPos 0 2) + 1 :=
  team_scratch_protected 0 5 2 (by omega) (by omega)

theorem foldl_join_init_fixed {α : Type} (join : α → α → α) (z : α)
    (hid : ∀ x : α, join x z = x) :
    ∀ (l : List α), (∀ y ∈ l, y = z) → ∀ (x : α), List.foldl join x l = x
  | [], _, x => rfl
  | y :: t, h, x => by
    rw [List.foldl_cons, h y (List.mem_cons_self y t), hid]
    exact foldl_join_init_fixed join z hid t
      (fun u hu => h u (List.mem_cons_of_mem y hu)) x

/-- C10: in the team-policy reduce, every pool worker left inactive by an
incomplete team holds exactly the Reducer identity in its pool-reduce slot
(it runs init and nothing else); the merge folds all pool_size slots in
ascending rank order; and since joining the identity on the right is a
no-op, the result equals the fold over the active workers' slots alone —
inactive workers contribute exactly the identity. -/
theorem team_reduce_inactive_identity {α : Type} (R : Reducer α)
    (f : ℕ → ℕ → α → α) (league team chunk pool : ℕ)
    (hl : 1 ≤ league) (ht : 1 ≤ team) (htp : team ≤ pool)
    (hid : ∀ x : α, R.join x R.init = x) :
    (∀ w, numTeams pool team * team ≤ w →
        teamSlot R f league team chunk pool w = R.init)
    ∧ runTeamReduce R f league team chunk pool
        = R.final (List.foldl R.join (teamSlot R f league team chunk pool 0)
            ((List.range' 1 (pool - 1)).map (teamSlot R f league team chunk pool)))
    ∧ runTeamReduce R f league team chunk pool
        = R.final (List.foldl R.join (teamSlot R f league team chunk pool 0)
            ((List.range' 1 (numTeams pool team * team - 1)).map
              (teamSlot R f league team chunk pool))) := by
  have hA1 : 1 ≤ numTeams pool team * team := by
    have h1 : 1 ≤ pool / team := (Nat.one_le_div_iff (by omega)).mpr htp
    exact Nat.mul_pos h1 ht
  have hA2 : numTeams pool team * team ≤ pool := Nat.div_mul_le_self pool team
  refine ⟨fun w hw => ?_, ?_, ?_⟩
  · unfold teamSlot
    rw [if_neg (by omega)]
  · unfold runTeamReduce mergeSlots
    rw [if_neg (by omega), mergeFrom_eq_foldl]
  · unfold runTeamReduce mergeSlots
    rw [if_neg (by omega), mergeFrom_eq_foldl]
    congr 1
    have hsplit : List.range' 1 (pool - 1)
        = List.range' 1 (numTeams pool team * team - 1)
          ++ List.range' (numTeams pool team * team)
              (pool - numTeams pool team * team) := by
      have h := List.range'_append_1 1 (numTeams pool team * team - 1)
        (pool - numTeams pool team * team)
      rw [show 1 + (numTeams pool team * team - 1) = numTeams pool team * team
            from by omega,
          show pool - numTeams pool team * team + (numTeams pool team * team - 1)
            = pool - 1 from by omega] at h
      exact h.symm
    rw [hsplit, List.map_append, List.foldl_append]
    apply foldl_join_init_fixed R.join R.init hid
    intro y hy
    rcases List.mem_map.mp hy with ⟨w, hwmem, rfl⟩
    have hw : numTeams pool team * team ≤ w := (List.mem_range'_1.mp hwmem).1
    unfold teamSlot
    rw [if_neg (by omega)]

/-- Witness for C10: pool 5, team 2 (worker 4 inactive), league 3. -/
theorem team_reduce_inactive_identity_witness :
    (∀ w, numTeams 5 2 * 2 ≤ w →
        teamSlot addReducer (fun _ r a => a + (r : ℤ)) 3 2 1 5 w = addReducer.init)
    ∧ runTeamReduce addReducer (fun _ r a => a + (r : ℤ)) 3 2 1 5
        = addReducer.final (List.foldl addReducer.join
            (teamSlot addReducer (fun _ r a => a + (r : ℤ)) 3 2 1 5 0)
            ((List.range' 1 (5 - 1)).map
              (teamSlot addReducer (fun _ r a => a + (r : ℤ)) 3 2 1 5)))
    ∧ runTeamReduce addReducer (fun _ r a => a + (r : ℤ)) 3 2 1 5
        = addReducer.final (List.foldl addReducer.join
            (teamSlot addReducer (fun _ r a => a + (r : ℤ)) 3 2 1 5 0)
            ((List.range' 1 (numTeams 5 2 * 2 - 1)).map
              (teamSlot addReducer (fun _ r a => a + (r : ℤ)) 3 2 1 5))) :=
  team_reduce_inactive_identity addReducer (fun _ r a => a + (r : ℤ)) 3 2 1 5
    (by omega) (by omega) (by omega) (fun x => Int.add_zero x)

end KokkosOMP
